import Mathlib

/-!
Verification model of the `xml2pg-ingestion` pipeline.

Python strings are modelled as `List Char` (`PyStr`); a COPY field value is
`Option PyStr` (`none` models Python `None`, `some s` a value whose `str()`
rendering is `s`); a row is a list of fields.  Byte counts of UTF-8 encoded
text are computed with `Char.utf8Size`, matching Python's `str.encode("utf-8")`
length.  Each definition mirrors the corresponding Python function of the
repository; the doc comment names its source.
-/

namespace Xml2PG

/-- Model of a Python `str`: a list of characters. -/
abbrev PyStr := List Char

/-- One COPY field value: `none` models Python `None`, `some s` a string. -/
abbrev Field := Option PyStr

/-- One row: a finite sequence of fields (`Row` in `src/pipeline/batching.py`). -/
abbrev Row := List Field

/-- `src/db/copy.py` `_TRANSLATE`: the backslash-escape table for COPY TEXT. -/
def _TRANSLATE : List (Char × PyStr) :=
  [ ('\\', ['\\', '\\'])
  , ('\t', ['\\', 't'])
  , ('\n', ['\\', 'n'])
  , ('\r', ['\\', 'r'])
  , ('\x08', ['\\', 'b'])
  , ('\x0c', ['\\', 'f'])
  , ('\x0b', ['\\', 'v']) ]

/-- One character under Python `str.translate(_TRANSLATE)`: characters in the
table map to their replacement, all others stay unchanged. -/
def translateChar (c : Char) : PyStr :=
  match (_TRANSLATE.lookup c) with
  | some r => r
  | none => [c]

/-- Python `s.translate(_TRANSLATE)`. -/
def pyTranslate (s : PyStr) : PyStr :=
  s.flatMap translateChar

/-- `src/db/copy.py` `_escape_copy_text`: `None` becomes the NULL marker
`\N`; a string containing none of tab, LF, CR, backslash is returned as is
(the source's fast path); otherwise it is passed through `_TRANSLATE`. -/
def _escape_copy_text (v : Field) : PyStr :=
  match v with
  | none => ['\\', 'N']
  | some s =>
    if ¬ ('\t' ∈ s) ∧ ¬ ('\n' ∈ s) ∧ ¬ ('\r' ∈ s) ∧ ¬ ('\\' ∈ s) then s
    else pyTranslate s

/-- Python `"\t".join` on a list of strings. -/
def joinTab : List PyStr → PyStr
  | [] => []
  | [x] => x
  | x :: y :: xs => x ++ '\t' :: joinTab (y :: xs)

/-- `src/db/copy.py` `_text_lines`, for one row: tab-joined escaped fields
plus a trailing line feed. -/
def _text_line (row : Row) : PyStr :=
  joinTab (row.map _escape_copy_text) ++ ['\n']

/-- UTF-8 byte length of a string, as `len(s.encode("utf-8"))` in Python. -/
def utf8Len (s : PyStr) : Nat :=
  (s.map Char.utf8Size).sum

/-- `src/db/copy.py` `_bytes_chunks`, inner loop: accumulate encoded lines in
a buffer; as soon as the buffer's byte size reaches `maxChunkBytes`, emit the
buffer (with its row count) and start a fresh one; emit a non-empty tail. -/
def bytesChunksGo (maxChunkBytes : Nat) (buf : PyStr) (rowsInBuf : Nat) :
    List Row → List (PyStr × Nat)
  | [] => if buf = [] then [] else [(buf, rowsInBuf)]
  | r :: rest =>
    let buf2 := buf ++ _text_line r
    if maxChunkBytes ≤ utf8Len buf2 then
      (buf2, rowsInBuf + 1) :: bytesChunksGo maxChunkBytes [] 0 rest
    else
      bytesChunksGo maxChunkBytes buf2 (rowsInBuf + 1) rest

/-- `src/db/copy.py` `_bytes_chunks`: chunk a row stream into byte buffers. -/
def _bytes_chunks (rows : List Row) (maxChunkBytes : Nat) : List (PyStr × Nat) :=
  bytesChunksGo maxChunkBytes [] 0 rows

/-- The psycopg3 branch of `src/db/copy.py` `copy_rows`: the sequence of
`copy.write(chunk)` calls and the returned total row count. -/
structure CopyRun where
  writes : List PyStr
  total : Nat
deriving Repr, DecidableEq

/-- `copy_rows` (psycopg3 branch): one `write` per chunk produced by
`_bytes_chunks`, in order; the returned total sums the per-chunk row counts. -/
def copy_rows (rows : List Row) (maxChunkBytes : Nat) : CopyRun :=
  { writes := (_bytes_chunks rows maxChunkBytes).map Prod.fst
  , total := ((_bytes_chunks rows maxChunkBytes).map Prod.snd).sum }

/-! ### Decoding, from the claim's words
The decoder below is NOT in the source; it is the claim's description of how
a COPY TEXT line is read back: strip the trailing line feed, split on tab,
map the two-character marker `\N` to absent, undo the backslash escapes on
every other field. -/

/-- Strip one trailing line feed, per the claim's decoding procedure. -/
def stripTrailingLF (s : PyStr) : PyStr :=
  if s.getLast? = some '\n' then s.dropLast else s

/-- Split a string on tab characters (Python `s.split("\t")`). -/
def splitTab : PyStr → List PyStr
  | [] => [[]]
  | c :: rest =>
    match splitTab rest with
    | [] => [[]]
    | f :: fs => if c = '\t' then [] :: f :: fs else (c :: f) :: fs

/-- Inverse of the escape table: the character denoted by `\c`. -/
def unescapeChar (c : Char) : Char :=
  if c = 't' then '\t'
  else if c = 'n' then '\n'
  else if c = 'r' then '\r'
  else if c = 'b' then '\x08'
  else if c = 'f' then '\x0c'
  else if c = 'v' then '\x0b'
  else c

/-- Undo backslash-escape sequences, per the claim's decoding procedure. -/
def unescape : PyStr → PyStr
  | [] => []
  | '\\' :: c :: rest => unescapeChar c :: unescape rest
  | c :: rest => c :: unescape rest

/-- Decode one field: the exact two-character marker `\N` is absent, any
other text is unescaped. -/
def decodeField (s : PyStr) : Field :=
  if s = ['\\', 'N'] then none else some (unescape s)

/-- Decode one encoded COPY TEXT line back into a row, per the claim. -/
def decodeLine (s : PyStr) : Row :=
  (splitTab (stripTrailingLF s)).map decodeField

/-! ### Batching (`src/pipeline/batching.py`) -/

/-- `src/pipeline/batching.py` `_estimate_copy_text_row_bytes`: 1 byte for
the trailing `\n`, `max(0, n-1)` bytes for tabs, and per field 2 bytes for
`None` or `len(str(value))` bytes otherwise. -/
def _estimate_copy_text_row_bytes (row : Row) : Nat :=
  if row = [] then 1
  else 1 + (row.length - 1) +
    (row.map (fun v => match v with | none => 2 | some s => s.length)).sum

/-- `src/pipeline/batching.py` `Batch`: a kind tag plus the rows. -/
structure Batch where
  kind : String
  rows : List Row
deriving Repr, DecidableEq

/-- Mutable state of `BatchBuilder`: the accumulated rows `_rows` and the
incrementally tracked byte estimate `_bytes`. -/
structure BBState where
  rows : List Row
  bytes : Nat
deriving Repr, DecidableEq

/-- A fresh `BatchBuilder` buffer: no rows, zero bytes. -/
def BBState.init : BBState := ⟨[], 0⟩

/-- `BatchBuilder.flush`: emit the accumulated batch if non-empty and clear
the buffer. -/
def BBState.flush (kind : String) (st : BBState) : Option Batch × BBState :=
  if st.rows = [] then (none, st)
  else (some ⟨kind, st.rows⟩, ⟨[], 0⟩)

/-- `BatchBuilder.add`: if the buffer is non-empty and the new row would
overflow either limit, emit the buffer and start a new one holding the row;
otherwise append the row and, if a limit is now reached, flush. -/
def BBState.add (kind : String) (maxRows maxBytes : Nat) (st : BBState)
    (row : Row) : Option Batch × BBState :=
  let rowBytes := _estimate_copy_text_row_bytes row
  if st.rows ≠ [] ∧ (maxRows < st.rows.length + 1 ∨ maxBytes < st.bytes + rowBytes) then
    (some ⟨kind, st.rows⟩, ⟨[row], rowBytes⟩)
  else
    let st2 : BBState := ⟨st.rows ++ [row], st.bytes + rowBytes⟩
    if maxRows ≤ st2.rows.length ∨ maxBytes ≤ st2.bytes then
      BBState.flush kind st2
    else
      (none, st2)

/-- The `for r in rows: b.add(r)` loop of `iter_batches`: returns the batches
yielded so far, in order, and the final builder state. -/
def runBuilder (kind : String) (maxRows maxBytes : Nat) :
    BBState → List Row → List Batch × BBState
  | st, [] => ([], st)
  | st, r :: rs =>
    let step := BBState.add kind maxRows maxBytes st r
    let rest := runBuilder kind maxRows maxBytes step.2 rs
    (step.1.toList ++ rest.1, rest.2)

/-- `src/pipeline/batching.py` `iter_batches`: feed every row through
`BatchBuilder.add`, then flush the tail. -/
def iter_batches (kind : String) (maxRows maxBytes : Nat) (rows : List Row) :
    List Batch :=
  let run := runBuilder kind maxRows maxBytes BBState.init rows
  run.1 ++ ((BBState.flush kind run.2).1).toList

/-! ### XML record extraction (`src/xml/parser.py`)
The parser works on `lxml` elements; they are modelled by `XmlElement`
(tag, attributes, text, children).  Python strings are `String` here. -/

/-- Model of an `lxml` element as the extractor sees it. -/
structure XmlElement where
  tag : String
  attrs : List (String × String)
  text : Option String
  children : List XmlElement

/-- `el.get(key)`: the attribute value, or `None` when absent. -/
def XmlElement.get (el : XmlElement) (key : String) : Option String :=
  el.attrs.lookup key

/-- Whitespace characters stripped by Python `int()` / `str.strip()`
(ASCII subset, which covers the inputs of interest). -/
def pyIsSpace (c : Char) : Bool :=
  c = ' ' ∨ c = '\t' ∨ c = '\n' ∨ c = '\r' ∨ c = '\x0c' ∨ c = '\x0b'

/-- Digit run of a Python integer literal after the first digit: single
underscores are allowed between digits. -/
def pyDigitsGo (acc : Nat) : List Char → Option Nat
  | [] => some acc
  | '_' :: c :: rest =>
    if c.isDigit then pyDigitsGo (acc * 10 + (c.toNat - '0'.toNat)) rest else none
  | '_' :: [] => none
  | c :: rest =>
    if c.isDigit then pyDigitsGo (acc * 10 + (c.toNat - '0'.toNat)) rest else none

/-- Digit run of a Python integer literal: non-empty, starts with a digit. -/
def pyDigits : List Char → Option Nat
  | [] => none
  | c :: rest =>
    if c.isDigit then pyDigitsGo (c.toNat - '0'.toNat) rest else none

/-- Python built-in `int(s)` on ASCII text: optional surrounding whitespace,
optional sign, then a digit run with optional single underscores between
digits.  Arbitrary precision: there is no 64-bit range restriction. -/
def pyInt (s : String) : Option Int :=
  let t := (s.toList.dropWhile pyIsSpace).reverse.dropWhile pyIsSpace |>.reverse
  match t with
  | '+' :: rest => (pyDigits rest).map Int.ofNat
  | '-' :: rest => (pyDigits rest).map (fun n => -(Int.ofNat n))
  | _ => (pyDigits t).map Int.ofNat

/-- `src/xml/parser.py` `_safe_int`: `None` stays `None`, otherwise Python
`int()` with failures mapped to `None`. -/
def _safe_int (value : Option String) : Option Int :=
  match value with
  | none => none
  | some s => pyInt s

/-- Python `str.strip()` (ASCII whitespace). -/
def pyStrip (s : String) : String :=
  ⟨(s.toList.dropWhile pyIsSpace).reverse.dropWhile pyIsSpace |>.reverse⟩

/-- `src/xml/parser.py` `_clean_text`: strip, and empty becomes `None`. -/
def _clean_text (value : Option String) : Option String :=
  match value with
  | none => none
  | some s => let t := pyStrip s; if t = "" then none else some t

/-- `src/xml/parser.py` `_extract_group_name`: the cleaned `name` attribute. -/
def _extract_group_name (groupEl : XmlElement) : Option String :=
  _clean_text (groupEl.get "name")

/-- `src/xml/parser.py` `_extract_event_name`: the cleaned element text. -/
def _extract_event_name (eventEl : XmlElement) : Option String :=
  _clean_text eventEl.text

/-- `src/xml/parser.py` `GroupEventRecord`. -/
structure GroupEventRecord where
  id : Int
  name : Option String
deriving Repr, DecidableEq

/-- `src/xml/parser.py` `EventRecord`. -/
structure EventRecord where
  id : Int
  group_event_id : Int
  name : Option String
deriving Repr, DecidableEq

/-- `src/xml/parser.py` `ParseResult`. -/
structure ParseResult where
  group : Option GroupEventRecord
  events : List EventRecord
  skipped : Nat
deriving Repr, DecidableEq

/-- The `for ev in group_el.iterfind("event")` loop body of
`parse_group_event`: events with an invalid id bump `skipped`, the others
are appended. -/
def parseEventsLoop (groupId : Int) : List XmlElement → List EventRecord × Nat
  | [] => ([], 0)
  | ev :: rest =>
    let tail := parseEventsLoop groupId rest
    match _safe_int (ev.get "id") with
    | none => (tail.1, tail.2 + 1)
    | some evId =>
      (⟨evId, groupId, _extract_event_name ev⟩ :: tail.1, tail.2)

/-- `src/xml/parser.py` `parse_group_event`: an invalid group id drops the
whole subtree with `skipped = 1`; otherwise each direct `event` child with an
invalid id is skipped and counted, the rest become `EventRecord`s.
`iterfind("event")` is the direct children whose tag is `"event"`. -/
def parse_group_event (groupEl : XmlElement) : ParseResult :=
  match _safe_int (groupEl.get "id") with
  | none => ⟨none, [], 1⟩
  | some groupId =>
    let evChildren := groupEl.children.filter (fun e => e.tag = "event")
    let res := parseEventsLoop groupId evChildren
    ⟨some ⟨groupId, _extract_group_name groupEl⟩, res.1, res.2⟩

/-! ### Consumer retry loop (`src/pipeline/consumer.py`) -/

/-- Observable trace of one `_process_batch` call: how many attempts ran,
the metric increments it performed (`copy_errors`, the `*_copied` row delta,
`batches_copied`), the sleeps between attempts, and the returned flag. -/
structure CopyTrace where
  attempts : Nat
  copyErrors : Nat
  sleeps : List ℚ
  rowsCopied : Nat
  batchesCopied : Nat
  ok : Bool
deriving Repr, DecidableEq

/-- The `for attempt in range(copy_retries + 1)` loop of `_process_batch`.
`outcome a = true` means the bulk-copy call of attempt `a` succeeds;
`copiedDelta` is the `len(batch.rows) if n == -1 else n` metric delta of a
successful copy; `fuel` is the number of loop iterations left (the range is
entered with `fuel = copy_retries + 1`, so it never runs out).  On failure
the loop increments `copy_errors`; at `attempt >= copy_retries` it returns
`False`, otherwise it sleeps `retry_base_sleep_sec * 2 ** attempt` and
retries.  A batch of unknown kind returns `True` immediately, touching no
metric. -/
def attemptLoop (known : Bool) (outcome : Nat → Bool) (copiedDelta : Nat)
    (retries : Nat) (base : ℚ) : Nat → Nat → CopyTrace
  | 0, _ => ⟨0, 0, [], 0, 0, false⟩
  | fuel + 1, attempt =>
    if ¬ known then ⟨1, 0, [], 0, 0, true⟩
    else if outcome attempt then ⟨1, 0, [], copiedDelta, 1, true⟩
    else if retries ≤ attempt then ⟨1, 1, [], 0, 0, false⟩
    else
      let t := attemptLoop known outcome copiedDelta retries base fuel (attempt + 1)
      ⟨t.attempts + 1, t.copyErrors + 1, base * 2 ^ attempt :: t.sleeps,
        t.rowsCopied, t.batchesCopied, t.ok⟩

/-- `src/pipeline/consumer.py` `_process_batch`. -/
def _process_batch (kind : String) (outcome : Nat → Bool) (copiedDelta : Nat)
    (retries : Nat) (base : ℚ) : CopyTrace :=
  attemptLoop (kind == "group" || kind == "event")
    outcome copiedDelta retries base (retries + 1) 0

/-- `consumer_main`, lines 76-80: after `_process_batch` returns, a `False`
result sets the shared stop event. -/
def consumerStopAfter (stopSet : Bool) (ok : Bool) : Bool :=
  if ok then stopSet else true

/-! ### Shared metrics (`src/pipeline/metrics.py`) -/

/-- The ten counters of `SharedMetrics`. -/
inductive CounterField where
  | groupsParsed | eventsParsed
  | groupsEnqueued | eventsEnqueued
  | groupsCopied | eventsCopied
  | batchesEnqueued | batchesCopied
  | skippedRecords | copyErrors
deriving DecidableEq, Repr

/-- The counter block: each field holds a signed integer (source: one
`multiprocessing.Value("q")` per field, all initialised to zero). -/
abbrev Metrics := CounterField → Int

/-- `SharedMetrics.__init__`: every counter starts at zero. -/
def Metrics.init : Metrics := fun _ => 0

/-- `SharedMetrics.inc`: a zero delta short-circuits, otherwise the chosen
field is increased by `delta` under the lock. -/
def Metrics.inc (m : Metrics) (field : CounterField) (delta : Int) : Metrics :=
  if delta = 0 then m
  else fun g => if g = field then m g + delta else m g

/-- The return value of a bulk-copy call as the consumer sees it:
`counted n` is the psycopg3 row count (`n ≥ 0`), `unknown` the psycopg2
sentinel `-1`. -/
inductive CopyReturn where
  | counted (n : Nat)
  | unknown
deriving DecidableEq, Repr

/-- Every `SharedMetrics.inc` call site in the pipeline, with the delta
expression the source passes there. -/
inductive MetricsOp where
  /-- `producer.py:83` — `inc(groups_parsed, 1)`. -/
  | producerGroupParsed
  /-- `producer.py:91` — `inc(events_parsed, len(bundle.events))`. -/
  | producerEventsParsed (numEvents : Nat)
  /-- `producer.py:109` — `inc(skipped_records, int(stats.skipped_records))`. -/
  | producerSkipped (skipped : Nat)
  /-- `producer.py:140-145` — `_put_batch`: `inc(batches_enqueued, 1)`, then
  `inc(groups_enqueued | events_enqueued, len(batch.rows))` by kind. -/
  | putBatch (kind : String) (numRows : Nat)
  /-- `consumer.py:107/110` — `inc(groups_copied | events_copied,
  len(batch.rows) if n == -1 else n)`. -/
  | consumerCopied (kind : String) (ret : CopyReturn) (numRows : Nat)
  /-- `consumer.py:117` — `inc(batches_copied, 1)`. -/
  | consumerBatchCopied
  /-- `consumer.py:122` — `inc(copy_errors, 1)`. -/
  | consumerCopyError

/-- Apply one pipeline metric update, calling `Metrics.inc` exactly as the
source call site does. -/
def applyOp (m : Metrics) : MetricsOp → Metrics
  | .producerGroupParsed => m.inc .groupsParsed 1
  | .producerEventsParsed k => m.inc .eventsParsed (Int.ofNat k)
  | .producerSkipped k => m.inc .skippedRecords (Int.ofNat k)
  | .putBatch kind n =>
    let m1 := m.inc .batchesEnqueued 1
    if kind = "group" then m1.inc .groupsEnqueued (Int.ofNat n)
    else m1.inc .eventsEnqueued (Int.ofNat n)
  | .consumerCopied kind ret numRows =>
    let delta : Int := match ret with
      | .unknown => Int.ofNat numRows
      | .counted n => Int.ofNat n
    if kind = "group" then m.inc .groupsCopied delta
    else if kind = "event" then m.inc .eventsCopied delta
    else m
  | .consumerBatchCopied => m.inc .batchesCopied 1
  | .consumerCopyError => m.inc .copyErrors 1

/-- A whole pipeline run, as far as the metrics are concerned: the sequence
of `inc`-performing operations, applied in order. -/
def applyOps (m : Metrics) (ops : List MetricsOp) : Metrics :=
  ops.foldl applyOp m

/-! ### psycopg2 stream adapter (`src/db/copy.py` `_IterTextIO`) -/

/-- State of the `_IterTextIO` adapter: the remaining string iterator and
the internal buffer `_buf`. -/
structure IterTextReader where
  it : List PyStr
  buf : PyStr
deriving DecidableEq, Repr

/-- All characters the adapter still holds: buffer first, then the
iterator's strings in order. -/
def IterTextReader.content (st : IterTextReader) : PyStr :=
  st.buf ++ st.it.flatten

/-- The `while len(self._buf) < size` loop of `read`: keep appending the
iterator's next string to the buffer until the buffer reaches `size`
characters or the iterator is exhausted. -/
def fillBuf (size : Nat) : List PyStr → PyStr → List PyStr × PyStr
  | [], buf => ([], buf)
  | s :: rest, buf =>
    if buf.length < size then fillBuf size rest (buf ++ s)
    else (s :: rest, buf)

/-- `_IterTextIO.read` for a non-negative `size`: fill the buffer, return
its first `size` characters and keep the rest.  (The `size = -1` branch of
the source returns the buffer plus the whole remaining iterator; the claim
only concerns positive sizes.) -/
def IterTextReader.read (st : IterTextReader) (size : Nat) :
    PyStr × IterTextReader :=
  let f := fillBuf size st.it st.buf
  (f.2.take size, ⟨f.1, f.2.drop size⟩)

/-- Repeated `read(size)` calls "until an empty string is returned",
concatenating the results; `fuel` bounds the number of calls. -/
def drainReads (size : Nat) : Nat → IterTextReader → PyStr
  | 0, _ => []
  | fuel + 1, st =>
    let r := st.read size
    if r.1 = [] then [] else r.1 ++ drainReads size fuel r.2

/-! ## Batch-builder proofs (claims C1 and C5) -/

/-- The byte estimate of a batch: the sum of the per-row estimates. -/
def sumEst (rows : List Row) : Nat :=
  (rows.map _estimate_copy_text_row_bytes).sum

/-- The claimed size law for one emitted batch. -/
def GoodBatch (maxRows maxBytes : Nat) (B : Batch) : Prop :=
  B.rows.length ≤ maxRows ∧ (sumEst B.rows ≤ maxBytes ∨ B.rows.length = 1)

/-- Builder invariant: the tracked `_bytes` equals the sum of row estimates,
and a non-empty buffer already satisfies the size law. -/
def BBInv (maxRows maxBytes : Nat) (st : BBState) : Prop :=
  st.bytes = sumEst st.rows ∧
    (st.rows = [] ∨
      (st.rows.length ≤ maxRows ∧ (st.bytes ≤ maxBytes ∨ st.rows.length = 1)))

theorem sumEst_append (a b : List Row) : sumEst (a ++ b) = sumEst a + sumEst b := by
  simp [sumEst]

theorem bbinit_inv (maxRows maxBytes : Nat) : BBInv maxRows maxBytes BBState.init := by
  constructor
  · rfl
  · exact Or.inl rfl

theorem flush_good (kind : String) (maxRows maxBytes : Nat) (st : BBState)
    (h : BBInv maxRows maxBytes st) :
    ∀ B ∈ ((BBState.flush kind st).1).toList, GoodBatch maxRows maxBytes B := by
  intro B hB
  unfold BBState.flush at hB
  split at hB
  · simp at hB
  · simp at hB
    rcases h with ⟨hbytes, hrows⟩
    rcases hrows with hnil | ⟨hlen, hby⟩
    · simp [BBState.flush, hnil] at hB
      rename_i hne
      exact absurd hnil hne
    · subst hB
      exact ⟨hlen, by rw [← hbytes]; exact hby⟩

theorem flush_inv (kind : String) (maxRows maxBytes : Nat) (st : BBState)
    (h : BBInv maxRows maxBytes st) :
    BBInv maxRows maxBytes (BBState.flush kind st).2 := by
  unfold BBState.flush
  split
  · exact h
  · exact ⟨rfl, Or.inl rfl⟩

theorem add_good_inv (kind : String) (maxRows maxBytes : Nat) (st : BBState)
    (r : Row) (hmr : 1 ≤ maxRows) (h : BBInv maxRows maxBytes st) :
    (∀ B ∈ ((BBState.add kind maxRows maxBytes st r).1).toList,
        GoodBatch maxRows maxBytes B) ∧
      BBInv maxRows maxBytes (BBState.add kind maxRows maxBytes st r).2 := by
  rcases h with ⟨hbytes, hrows⟩
  unfold BBState.add
  simp only []
  split
  · -- the buffer is non-empty and the new row would overflow a limit:
    -- emit the buffer, restart with just the new row
    rename_i hcond
    constructor
    · intro B hB
      simp at hB
      subst hB
      rcases hrows with hnil | ⟨hlen, hby⟩
      · exact absurd hnil hcond.1
      · exact ⟨hlen, by rw [← hbytes]; exact hby⟩
    · refine ⟨by simp [sumEst], Or.inr ⟨by simpa using hmr, Or.inr rfl⟩⟩
  · -- append the row, then flush if a limit is reached
    rename_i hcond
    have hsum : st.bytes + _estimate_copy_text_row_bytes r
        = sumEst (st.rows ++ [r]) := by
      rw [sumEst_append, hbytes]
      simp [sumEst]
    split
    · -- limit reached: the appended buffer is flushed as a batch
      rename_i hlim
      have hgood : GoodBatch maxRows maxBytes ⟨kind, st.rows ++ [r]⟩ := by
        rcases Decidable.not_and_iff_or_not.mp hcond with hnil | hover
        · have hnil' : st.rows = [] := not_not.mp hnil
          rw [hnil']
          exact ⟨by simpa using hmr, Or.inr (by simp)⟩
        · push_neg at hover
          refine ⟨by simpa using hover.1, Or.inl ?_⟩
          rw [← hsum]
          exact hover.2
      constructor
      · intro B hB
        unfold BBState.flush at hB
        split at hB
        · simp at hB
        · simp at hB
          subst hB
          exact hgood
      · apply flush_inv
        exact ⟨hsum, Or.inr ⟨hgood.1, by rw [hsum]; exact hgood.2⟩⟩
    · -- no limit reached: keep accumulating
      rename_i hlim
      push_neg at hlim
      refine ⟨by intro B hB; simp at hB, hsum, Or.inr ⟨le_of_lt hlim.1, Or.inl (le_of_lt hlim.2)⟩⟩

theorem runBuilder_good (kind : String) (maxRows maxBytes : Nat)
    (hmr : 1 ≤ maxRows) :
    ∀ (rs : List Row) (st : BBState), BBInv maxRows maxBytes st →
      (∀ B ∈ (runBuilder kind maxRows maxBytes st rs).1,
          GoodBatch maxRows maxBytes B) ∧
        BBInv maxRows maxBytes (runBuilder kind maxRows maxBytes st rs).2 := by
  intro rs
  induction rs with
  | nil => intro st h; exact ⟨by intro B hB; simp [runBuilder] at hB, h⟩
  | cons r rs ih =>
    intro st h
    have hstep := add_good_inv kind maxRows maxBytes st r hmr h
    have hrest := ih (BBState.add kind maxRows maxBytes st r).2 hstep.2
    constructor
    · intro B hB
      simp only [runBuilder, List.mem_append] at hB
      rcases hB with hB | hB
      · exact hstep.1 B hB
      · exact hrest.1 B hB
    · simpa [runBuilder] using hrest.2

/-- **C1.** For every input sequence fed through `BatchBuilder.add` with a
final `flush` (i.e. through `iter_batches`), provided `max_rows ≥ 1`, every
emitted batch has at most `max_rows` rows, and its byte estimate (the sum of
`_estimate_copy_text_row_bytes` over its rows) is at most `max_bytes` unless
the batch holds a single row. -/
theorem batch_size_law (kind : String) (maxRows maxBytes : Nat)
    (rows : List Row) (hmr : 1 ≤ maxRows) (B : Batch)
    (hB : B ∈ iter_batches kind maxRows maxBytes rows) :
    B.rows.length ≤ maxRows ∧
      ((B.rows.map _estimate_copy_text_row_bytes).sum ≤ maxBytes ∨
        B.rows.length = 1) := by
  have hrun := runBuilder_good kind maxRows maxBytes hmr rows BBState.init
    (bbinit_inv maxRows maxBytes)
  unfold iter_batches at hB
  simp only [List.mem_append] at hB
  rcases hB with hB | hB
  · exact hrun.1 B hB
  · exact flush_good kind maxRows maxBytes _ hrun.2 B hB

/-- **C1 witness.** The size law applied to a concrete run. -/
theorem batch_size_law_witness :
    1 ≤ 2 ∧
      (⟨"event", [[some ['a']], [some ['b']]]⟩ : Batch)
        ∈ iter_batches "event" 2 1000 [[some ['a']], [some ['b']], [some ['c']]] ∧
      ((⟨"event", [[some ['a']], [some ['b']]]⟩ : Batch).rows.length ≤ 2 ∧
        (((⟨"event", [[some ['a']], [some ['b']]]⟩ : Batch).rows.map
            _estimate_copy_text_row_bytes).sum ≤ 1000 ∨
          (⟨"event", [[some ['a']], [some ['b']]]⟩ : Batch).rows.length = 1)) :=
  ⟨by decide, by decide,
    batch_size_law "event" 2 1000 [[some ['a']], [some ['b']], [some ['c']]]
      (by decide) _ (by decide)⟩

theorem add_concat (kind : String) (maxRows maxBytes : Nat) (st : BBState)
    (r : Row) :
    ((((BBState.add kind maxRows maxBytes st r).1).toList.map Batch.rows).flatten
        ++ ((BBState.add kind maxRows maxBytes st r).2).rows)
      = st.rows ++ [r] := by
  unfold BBState.add BBState.flush
  simp only []
  split
  · simp
  · split
    · split
      · rename_i hnil
        simp at hnil
      · simp
    · simp

theorem runBuilder_concat (kind : String) (maxRows maxBytes : Nat) :
    ∀ (rs : List Row) (st : BBState),
      (((runBuilder kind maxRows maxBytes st rs).1.map Batch.rows).flatten
          ++ ((runBuilder kind maxRows maxBytes st rs).2).rows)
        = st.rows ++ rs := by
  intro rs
  induction rs with
  | nil => intro st; simp [runBuilder]
  | cons r rs ih =>
    intro st
    have hstep := add_concat kind maxRows maxBytes st r
    have hrest := ih (BBState.add kind maxRows maxBytes st r).2
    simp only [runBuilder, List.map_append, List.flatten_append, List.append_assoc]
    rw [hrest, ← List.append_assoc, hstep]
    simp

theorem flush_concat (kind : String) (st : BBState) :
    (((BBState.flush kind st).1).toList.map Batch.rows).flatten = st.rows := by
  unfold BBState.flush
  split
  · rename_i hnil
    simp [hnil]
  · simp

/-- **C5.** For every finite input sequence, the concatenation, in emission
order, of the rows of all batches produced by `iter_batches` equals the
input sequence exactly: no row is dropped, duplicated, or reordered. -/
theorem iter_batches_concat (kind : String) (maxRows maxBytes : Nat)
    (rows : List Row) :
    ((iter_batches kind maxRows maxBytes rows).map Batch.rows).flatten = rows := by
  unfold iter_batches
  simp only [List.map_append, List.flatten_append]
  rw [flush_concat]
  simpa using runBuilder_concat kind maxRows maxBytes rows BBState.init

/-! ## Metrics monotonicity (claim C9) -/

theorem inc_mono (m : Metrics) (field g : CounterField) (delta : Int)
    (hd : 0 ≤ delta) : m g ≤ (m.inc field delta) g := by
  unfold Metrics.inc
  split
  · exact le_refl _
  · dsimp only
    split
    · exact le_add_of_nonneg_right hd
    · exact le_refl _

theorem applyOp_mono (m : Metrics) (op : MetricsOp) (g : CounterField) :
    m g ≤ (applyOp m op) g := by
  cases op with
  | producerGroupParsed => exact inc_mono m _ g 1 (by norm_num)
  | producerEventsParsed k => exact inc_mono m _ g _ (Int.ofNat_nonneg k)
  | producerSkipped k => exact inc_mono m _ g _ (Int.ofNat_nonneg k)
  | putBatch kind n =>
    unfold applyOp
    dsimp only
    split
    · exact le_trans (inc_mono m _ g 1 (by norm_num))
        (inc_mono _ _ g _ (Int.ofNat_nonneg n))
    · exact le_trans (inc_mono m _ g 1 (by norm_num))
        (inc_mono _ _ g _ (Int.ofNat_nonneg n))
  | consumerCopied kind ret numRows =>
    unfold applyOp
    dsimp only
    have hd : (0 : Int) ≤ (match ret with
        | .unknown => Int.ofNat numRows
        | .counted n => Int.ofNat n) := by
      cases ret <;> exact Int.ofNat_nonneg _
    split
    · exact inc_mono m _ g _ hd
    · split
      · exact inc_mono m _ g _ hd
      · exact le_refl _
  | consumerBatchCopied => exact inc_mono m _ g 1 (by norm_num)
  | consumerCopyError => exact inc_mono m _ g 1 (by norm_num)

/-- **C9.** Every `SharedMetrics` counter is monotonically non-decreasing:
each counter update the producer, the consumers or the coordinator performs
goes through `SharedMetrics.inc` with a non-negative delta, so after any
sequence of pipeline operations every counter is at least its old value. -/
theorem metrics_monotone (m : Metrics) (ops : List MetricsOp)
    (g : CounterField) : m g ≤ (applyOps m ops) g := by
  induction ops generalizing m with
  | nil => exact le_refl _
  | cons op ops ih =>
    exact le_trans (applyOp_mono m op g) (by simpa [applyOps] using ih (applyOp m op))

/-! ## Consumer retry proofs (claim C6) -/

theorem attemptLoop_succ (known : Bool) (outcome : Nat → Bool)
    (copiedDelta retries : Nat) (base : ℚ) (fuel attempt : Nat) :
    attemptLoop known outcome copiedDelta retries base (fuel + 1) attempt
      = if ¬ known then ⟨1, 0, [], 0, 0, true⟩
        else if outcome attempt then ⟨1, 0, [], copiedDelta, 1, true⟩
        else if retries ≤ attempt then ⟨1, 1, [], 0, 0, false⟩
        else
          let t := attemptLoop known outcome copiedDelta retries base fuel
            (attempt + 1)
          ⟨t.attempts + 1, t.copyErrors + 1, base * 2 ^ attempt :: t.sleeps,
            t.rowsCopied, t.batchesCopied, t.ok⟩ := rfl

theorem attemptLoop_allFail (outcome : Nat → Bool) (copiedDelta retries : Nat)
    (base : ℚ) :
    ∀ (n attempt : Nat), attempt + n = retries →
      (∀ a, attempt ≤ a → a ≤ retries → outcome a = false) →
      attemptLoop true outcome copiedDelta retries base (n + 1) attempt
        = ⟨n + 1, n + 1,
            (List.range n).map (fun i => base * 2 ^ (attempt + i)), 0, 0, false⟩ := by
  intro n
  induction n with
  | zero =>
    intro attempt hend hfail
    have h1 : outcome attempt = false := hfail attempt le_rfl (by omega)
    have h2 : retries ≤ attempt := by omega
    rw [attemptLoop_succ]
    simp [h1, h2]
  | succ n ih =>
    intro attempt hend hfail
    have h1 : outcome attempt = false := hfail attempt le_rfl (by omega)
    have h2 : ¬ retries ≤ attempt := by omega
    have h3 := ih (attempt + 1) (by omega) (fun a ha hb => hfail a (by omega) hb)
    have hlist : (List.range (n + 1)).map (fun i => base * 2 ^ (attempt + i))
        = base * 2 ^ attempt
            :: (List.range n).map (fun i => base * 2 ^ (attempt + 1 + i)) := by
      rw [List.range_succ_eq_map]
      simp only [List.map_cons, List.map_map, Nat.add_zero]
      refine congrArg _ (List.map_congr_left ?_)
      intro i _
      simp only [Function.comp]
      congr 2
      omega
    rw [attemptLoop_succ]
    simp [h1, h2, h3, hlist]

theorem attemptLoop_firstSuccess (outcome : Nat → Bool)
    (copiedDelta retries : Nat) (base : ℚ) :
    ∀ (k attempt fuel : Nat), k < fuel + 1 →
      (∀ j, j < k → outcome (attempt + j) = false) →
      outcome (attempt + k) = true →
      attempt + k ≤ retries →
      attemptLoop true outcome copiedDelta retries base (fuel + 1) attempt
        = ⟨k + 1, k, (List.range k).map (fun i => base * 2 ^ (attempt + i)),
            copiedDelta, 1, true⟩ := by
  intro k
  induction k with
  | zero =>
    intro attempt fuel hk hfail hsucc hb
    rw [attemptLoop_succ]
    simp at hsucc
    simp [hsucc]
  | succ k ih =>
    intro attempt fuel hk hfail hsucc hb
    have h1 : outcome attempt = false := by
      have := hfail 0 (by omega)
      simpa using this
    have h2 : ¬ retries ≤ attempt := by omega
    obtain ⟨fuel', rfl⟩ : ∃ m, fuel = m + 1 := ⟨fuel - 1, by omega⟩
    have h3 := ih (attempt + 1) fuel' (by omega)
      (fun j hj => by
        have := hfail (j + 1) (by omega)
        simpa [Nat.add_assoc, Nat.add_comm 1 j] using this)
      (by
        have : attempt + 1 + k = attempt + (k + 1) := by omega
        rw [this]
        exact hsucc)
      (by omega)
    have hlist : (List.range (k + 1)).map (fun i => base * 2 ^ (attempt + i))
        = base * 2 ^ attempt
            :: (List.range k).map (fun i => base * 2 ^ (attempt + 1 + i)) := by
      rw [List.range_succ_eq_map]
      simp only [List.map_cons, List.map_map, Nat.add_zero]
      refine congrArg _ (List.map_congr_left ?_)
      intro i _
      simp only [Function.comp]
      congr 2
      omega
    rw [attemptLoop_succ]
    simp [h1, h2, h3, hlist]

/-- **C6.** With a batch of a known kind, when every bulk-copy attempt
fails, `_process_batch` performs exactly `copy_retries + 1` attempts,
increments `copy_errors` once per failed attempt, sleeps
`retry_base_sleep_sec * 2 ^ attempt` between consecutive attempts, does not
touch `batches_copied`, and returns failure, whereupon `consumer_main` sets
the shared stop flag; if the first success is at attempt `k`, exactly
`k + 1` attempts run and `batches_copied` is incremented by 1. -/
theorem process_batch_retry_spec (kind : String) (outcome : Nat → Bool)
    (copiedDelta retries : Nat) (base : ℚ)
    (hkind : kind = "group" ∨ kind = "event") :
    ((∀ a, a ≤ retries → outcome a = false) →
        _process_batch kind outcome copiedDelta retries base
            = ⟨retries + 1, retries + 1,
                (List.range retries).map (fun a => base * 2 ^ a), 0, 0, false⟩
          ∧ ∀ stopSet, consumerStopAfter stopSet
              (_process_batch kind outcome copiedDelta retries base).ok = true)
      ∧ (∀ k, k ≤ retries → (∀ j, j < k → outcome j = false) →
          outcome k = true →
          _process_batch kind outcome copiedDelta retries base
            = ⟨k + 1, k, (List.range k).map (fun a => base * 2 ^ a),
                copiedDelta, 1, true⟩) := by
  have hknown : (kind == "group" || kind == "event") = true := by
    rcases hkind with h | h <;> simp [h]
  constructor
  · intro hfail
    have h := attemptLoop_allFail outcome copiedDelta retries base retries 0
      (by omega) (fun a _ hb => hfail a hb)
    unfold _process_batch
    rw [hknown, h]
    simp [consumerStopAfter]
  · intro k hk hfail hsucc
    have h := attemptLoop_firstSuccess outcome copiedDelta retries base k 0
      retries (by omega) (fun j hj => by simpa using hfail j hj)
      (by simpa using hsucc) (by omega)
    unfold _process_batch
    rw [hknown, h]
    simp

/-- **C6 witness.** The retry protocol applied at `copy_retries = 2`,
`retry_base_sleep_sec = 1/2`, with every attempt failing. -/
theorem process_batch_retry_spec_witness :
    _process_batch "group" (fun _ => false) 7 2 (1 / 2)
      = ⟨3, 3, [1 / 2, 1], 0, 0, false⟩ := by
  have h := (process_batch_retry_spec "group" (fun _ => false) 7 2 (1 / 2)
    (Or.inl rfl)).1 (fun a _ => rfl)
  rw [h.1]
  norm_num [List.range_succ]

/-! ## psycopg2 stream adapter proofs (claim C10) -/

theorem fillBuf_content (size : Nat) :
    ∀ (it : List PyStr) (buf : PyStr),
      (fillBuf size it buf).2 ++ (fillBuf size it buf).1.flatten
        = buf ++ it.flatten := by
  intro it
  induction it with
  | nil => intro buf; simp [fillBuf]
  | cons s rest ih =>
    intro buf
    unfold fillBuf
    split
    · rw [ih (buf ++ s)]
      simp
    · simp

theorem fillBuf_ne (size : Nat) (hsize : 0 < size) :
    ∀ (it : List PyStr) (buf : PyStr), buf ++ it.flatten ≠ [] →
      (fillBuf size it buf).2 ≠ [] := by
  intro it
  induction it with
  | nil => intro buf h; simpa [fillBuf] using h
  | cons s rest ih =>
    intro buf h
    unfold fillBuf
    split
    · exact ih (buf ++ s) (by simpa [List.append_assoc] using h)
    · rename_i hlen
      intro hbuf
      simp only [] at hbuf
      rw [hbuf] at hlen
      simp at hlen
      omega

theorem read_content (st : IterTextReader) (size : Nat) :
    (st.read size).1 ++ (st.read size).2.content = st.content := by
  unfold IterTextReader.read IterTextReader.content
  simp only []
  rw [← List.append_assoc, List.take_append_drop]
  exact fillBuf_content size st.it st.buf

theorem read_empty_iff (st : IterTextReader) (size : Nat) (hsize : 0 < size) :
    (st.read size).1 = [] ↔ st.content = [] := by
  constructor
  · intro h
    by_contra hc
    have hne := fillBuf_ne size hsize st.it st.buf hc
    unfold IterTextReader.read at h
    simp only [List.take_eq_nil_iff] at h
    rcases h with h | h
    · omega
    · exact hne h
  · intro h
    have := read_content st size
    rw [h] at this
    exact (List.append_eq_nil.mp this).1

theorem read_length_le (st : IterTextReader) (size : Nat) :
    (st.read size).1.length ≤ size := by
  unfold IterTextReader.read
  simp [List.length_take]

theorem drainReads_content (size : Nat) (hsize : 0 < size) :
    ∀ (fuel : Nat) (st : IterTextReader), st.content.length < fuel →
      drainReads size fuel st = st.content := by
  intro fuel
  induction fuel with
  | zero => intro st h; omega
  | succ fuel ih =>
    intro st h
    unfold drainReads
    simp only []
    split
    · rename_i hempty
      rw [(read_empty_iff st size hsize).mp hempty]
    · rename_i hne
      have hcontent := read_content st size
      have hlt : (st.read size).2.content.length < fuel := by
        have hlen : (st.read size).1.length + (st.read size).2.content.length
            = st.content.length := by
          rw [← hcontent, List.length_append]
        have hpos : 0 < (st.read size).1.length := List.length_pos.mpr hne
        omega
      rw [ih (st.read size).2 hlt, hcontent]

/-- **C10.** The psycopg2 stream adapter preserves the stream content: every
`read(size)` call with positive `size` returns at most `size` characters,
and concatenating the results of successive `read(size)` calls until an
empty string is returned yields exactly the concatenation of all strings of
the underlying iterator. -/
theorem iter_text_reader_spec (its : List PyStr) (st : IterTextReader)
    (size fuel : Nat) (hsize : 0 < size) (hfuel : its.flatten.length < fuel) :
    (st.read size).1.length ≤ size ∧
      drainReads size fuel ⟨its, []⟩ = its.flatten := by
  refine ⟨read_length_le st size, ?_⟩
  have h := drainReads_content size hsize fuel ⟨its, []⟩
    (by simpa [IterTextReader.content] using hfuel)
  simpa [IterTextReader.content] using h

/-- **C10 witness.** The adapter applied to a concrete iterator. -/
theorem iter_text_reader_spec_witness :
    ((IterTextReader.read ⟨[['a', 'b', 'c'], ['d']], []⟩ 2).1.length ≤ 2) ∧
      drainReads 2 5 ⟨[['a', 'b', 'c'], ['d']], []⟩ = ['a', 'b', 'c', 'd'] :=
  iter_text_reader_spec [['a', 'b', 'c'], ['d']] ⟨[['a', 'b', 'c'], ['d']], []⟩
    2 5 (by decide) (by decide)

/-! ## Escape and round-trip proofs (claims C2 and C4) -/

/-- Modelled from the claim's words (and §4.4 of the spec): replace every
occurrence of each of the seven characters backslash, tab, line feed,
carriage return, backspace, form feed, vertical tab by its two-character
backslash-escape sequence, and leave all other characters unchanged. -/
def escapeSpecChar (c : Char) : PyStr :=
  if c = '\\' then ['\\', '\\']
  else if c = '\t' then ['\\', 't']
  else if c = '\n' then ['\\', 'n']
  else if c = '\r' then ['\\', 'r']
  else if c = '\x08' then ['\\', 'b']
  else if c = '\x0c' then ['\\', 'f']
  else if c = '\x0b' then ['\\', 'v']
  else [c]

/-- The claim's escaping function, applied to every character. -/
def escapeSpec (s : PyStr) : PyStr :=
  s.flatMap escapeSpecChar

theorem translateChar_eq_spec (c : Char) : translateChar c = escapeSpecChar c := by
  unfold translateChar _TRANSLATE escapeSpecChar
  simp only [List.lookup]
  split_ifs with h1 h2 h3 h4 h5 h6 h7 <;>
    first
    | simp_all [beq_iff_eq, beq_eq_false_iff_ne]
    | (rw [beq_eq_false_iff_ne.mpr h1, beq_eq_false_iff_ne.mpr h2,
        beq_eq_false_iff_ne.mpr h3, beq_eq_false_iff_ne.mpr h4,
        beq_eq_false_iff_ne.mpr h5, beq_eq_false_iff_ne.mpr h6,
        beq_eq_false_iff_ne.mpr h7])

theorem pyTranslate_eq_spec (s : PyStr) : pyTranslate s = escapeSpec s := by
  unfold pyTranslate escapeSpec
  rw [show translateChar = escapeSpecChar from funext translateChar_eq_spec]

/-- **C4 (amended).** The escaping function replaces every occurrence of
each of the seven special characters by its backslash-escape sequence (and
leaves other characters unchanged) exactly when the value contains at least
one of backslash, tab, line feed, carriage return; a value containing none
of those four is returned unchanged, so a backspace, form feed or vertical
tab occurring without them stays unescaped. -/
theorem escape_copy_text_fast_path (s : PyStr) :
    _escape_copy_text (some s)
      = if '\t' ∈ s ∨ '\n' ∈ s ∨ '\r' ∈ s ∨ '\\' ∈ s then escapeSpec s
        else s := by
  rw [show _escape_copy_text (some s)
      = if '\t' ∉ s ∧ '\n' ∉ s ∧ '\r' ∉ s ∧ '\\' ∉ s then s else pyTranslate s
    from rfl]
  by_cases h : '\t' ∈ s ∨ '\n' ∈ s ∨ '\r' ∈ s ∨ '\\' ∈ s
  · rw [if_pos h, if_neg (by tauto), pyTranslate_eq_spec]
  · rw [if_neg h, if_pos (by tauto)]

/-- **C4 counterexample.** A value consisting of a single backspace contains
none of tab, line feed, carriage return, backslash, so the fast path returns
it unescaped — the claim demands the escape sequence `\b`. -/
theorem escape_copy_text_claim_false :
    _escape_copy_text (some ['\x08']) = ['\x08'] ∧
      escapeSpec ['\x08'] = ['\\', 'b'] ∧
      _escape_copy_text (some ['\x08']) ≠ escapeSpec ['\x08'] := by
  decide

theorem unescape_cons_ne (c : Char) (rest : PyStr) (hc : c ≠ '\\') :
    unescape (c :: rest) = c :: unescape rest := by
  rw [unescape.eq_def]
  split
  · simp_all
  · rename_i c2 r2 heq
    injection heq with h1 h2
    exact absurd h1 hc
  · rename_i h
    injection h with h1 h2
    rw [h1, h2]

theorem unescape_of_no_backslash : ∀ s : PyStr, '\\' ∉ s → unescape s = s := by
  intro s
  induction s with
  | nil => intro _; rfl
  | cons c rest ih =>
    intro h
    have hc : c ≠ '\\' := fun hh => h (by simp [hh])
    rw [unescape_cons_ne c rest hc, ih (fun hm => h (by simp [hm]))]

theorem unescape_esc_pair (e : Char) (t : PyStr) :
    unescape ('\\' :: e :: t) = unescapeChar e :: unescape t := rfl

theorem unescape_escapeSpecChar (c : Char) (t : PyStr) :
    unescape (escapeSpecChar c ++ t) = c :: unescape t := by
  unfold escapeSpecChar
  split_ifs with h1 h2 h3 h4 h5 h6 h7 <;>
    simp_all [List.cons_append, List.nil_append, unescape_esc_pair, unescapeChar]
  exact unescape_cons_ne c t h1

theorem unescape_escapeSpec : ∀ s : PyStr, unescape (escapeSpec s) = s := by
  intro s
  induction s with
  | nil => rfl
  | cons c rest ih =>
    unfold escapeSpec
    rw [List.flatMap_cons]
    rw [unescape_escapeSpecChar c]
    exact congrArg (fun l => c :: l) ih

theorem escapeSpec_ne_nullMarker (s : PyStr) : escapeSpec s ≠ ['\\', 'N'] := by
  cases s with
  | nil => simp [escapeSpec]
  | cons c rest =>
    unfold escapeSpec
    rw [List.flatMap_cons]
    unfold escapeSpecChar
    split_ifs with h1 h2 h3 h4 h5 h6 h7 <;>
      (simp only [List.cons_append, List.nil_append]
       intro heq
       injection heq with g1 g2
       first
       | (injection g2 with g3 g4
          exact absurd g3 (by decide))
       | exact h1 g1)

theorem tab_not_mem_escapeSpecChar (c : Char) : '\t' ∉ escapeSpecChar c := by
  unfold escapeSpecChar
  split_ifs with h1 h2 h3 h4 h5 h6 h7 <;> simp_all
  exact fun hh => h2 hh.symm

theorem tab_not_mem_escape (f : Field) : '\t' ∉ _escape_copy_text f := by
  cases f with
  | none => simp [_escape_copy_text]
  | some s =>
    rw [show _escape_copy_text (some s)
        = if '\t' ∉ s ∧ '\n' ∉ s ∧ '\r' ∉ s ∧ '\\' ∉ s then s else pyTranslate s
      from rfl]
    split_ifs with h
    · exact h.1
    · rw [pyTranslate_eq_spec]
      intro hmem
      rw [escapeSpec, List.mem_flatMap] at hmem
      obtain ⟨a, _, ha⟩ := hmem
      exact tab_not_mem_escapeSpecChar a ha

theorem decodeField_escape (v : Field) : decodeField (_escape_copy_text v) = v := by
  cases v with
  | none => decide
  | some s =>
    rw [show _escape_copy_text (some s)
        = if '\t' ∉ s ∧ '\n' ∉ s ∧ '\r' ∉ s ∧ '\\' ∉ s then s else pyTranslate s
      from rfl]
    split_ifs with hcond
    · unfold decodeField
      rw [if_neg (by
        intro heq
        exact hcond.2.2.2 (by rw [heq]; simp))]
      rw [unescape_of_no_backslash s hcond.2.2.2]
    · rw [pyTranslate_eq_spec]
      unfold decodeField
      rw [if_neg (escapeSpec_ne_nullMarker s), unescape_escapeSpec]

theorem splitTab_ne_nil (s : PyStr) : splitTab s ≠ [] := by
  cases s with
  | nil => simp [splitTab]
  | cons c rest =>
    unfold splitTab
    cases h : splitTab rest with
    | nil => simp
    | cons f fs => split_ifs <;> simp

theorem splitTab_no_tab : ∀ s : PyStr, '\t' ∉ s → splitTab s = [s] := by
  intro s
  induction s with
  | nil => intro _; rfl
  | cons c rest ih =>
    intro h
    have hc : c ≠ '\t' := fun hh => h (by simp [hh])
    have hr := ih (fun hm => h (by simp [hm]))
    unfold splitTab
    rw [hr]
    simp [hc]

theorem splitTab_cons (c : Char) (rest : PyStr) :
    splitTab (c :: rest)
      = match splitTab rest with
        | [] => [[]]
        | f :: fs => if c = '\t' then [] :: f :: fs else (c :: f) :: fs := rfl

theorem splitTab_append_tab : ∀ (x t : PyStr), '\t' ∉ x →
    splitTab (x ++ '\t' :: t) = x :: splitTab t := by
  intro x
  induction x with
  | nil =>
    intro t _
    simp only [List.nil_append, splitTab_cons]
    obtain ⟨f, fs, hf⟩ : ∃ f fs, splitTab t = f :: fs := by
      cases h : splitTab t with
      | nil => exact absurd h (splitTab_ne_nil t)
      | cons f fs => exact ⟨f, fs, rfl⟩
    rw [hf]
    simp
  | cons c x ih =>
    intro t h
    have hc : c ≠ '\t' := fun hh => h (by simp [hh])
    have hr := ih t (fun hm => h (by simp [hm]))
    rw [List.cons_append, splitTab_cons, hr]
    simp [hc]

theorem splitTab_joinTab : ∀ l : List PyStr, l ≠ [] →
    (∀ f ∈ l, '\t' ∉ f) → splitTab (joinTab l) = l := by
  intro l
  induction l with
  | nil => intro h _; exact absurd rfl h
  | cons x xs ih =>
    intro _ hl
    cases xs with
    | nil => exact splitTab_no_tab x (hl x (by simp))
    | cons y ys =>
      rw [show joinTab (x :: y :: ys) = x ++ '\t' :: joinTab (y :: ys) from rfl]
      rw [splitTab_append_tab x _ (hl x (by simp))]
      rw [ih (by simp) (fun f hf => hl f (by simp [hf]))]

/-- **C2 (amended).** For every row with at least one field, decoding the
encoded COPY TEXT line — strip the trailing line feed, split on tab, map
the marker `\N` to absent, undo the backslash escapes — yields the original
row; in particular a field whose text is `\N` is encoded as `\\N` and
decodes back to the literal text, not to absent. -/
theorem decode_text_line (row : Row) (h : row ≠ []) :
    decodeLine (_text_line row) = row := by
  unfold decodeLine _text_line stripTrailingLF
  rw [if_pos (List.getLast?_concat _), List.dropLast_concat]
  rw [splitTab_joinTab (row.map _escape_copy_text) (by simpa using h)
    (by
      intro f hf
      rw [List.mem_map] at hf
      obtain ⟨v, _, rfl⟩ := hf
      exact tab_not_mem_escape v)]
  rw [List.map_map]
  have hid : ∀ v ∈ row, (decodeField ∘ _escape_copy_text) v = v :=
    fun v _ => decodeField_escape v
  rw [List.map_congr_left hid]
  exact List.map_id row

/-- **C2 witness.** The round trip on a row exercising the NULL marker as
text, an absent field, and every escaped character. -/
theorem decode_text_line_witness :
    ([some ['\\', 'N'], none, some ['a', '\t', '\n', '\r', '\x08', '\x0c', '\x0b', '\\'], some []] : Row) ≠ [] ∧
      decodeLine (_text_line
          [some ['\\', 'N'], none,
            some ['a', '\t', '\n', '\r', '\x08', '\x0c', '\x0b', '\\'], some []])
        = [some ['\\', 'N'], none,
            some ['a', '\t', '\n', '\r', '\x08', '\x0c', '\x0b', '\\'], some []] :=
  ⟨by decide,
    decode_text_line
      [some ['\\', 'N'], none,
        some ['a', '\t', '\n', '\r', '\x08', '\x0c', '\x0b', '\\'], some []]
      (by decide)⟩

/-- **C2 counterexample.** The encoder is not injective on the zero-field
row: `[]` encodes to a bare line feed, which decodes to a row with one empty
field, so the round trip fails for the empty row. -/
theorem decode_text_line_claim_false :
    decodeLine (_text_line ([] : Row)) = [some []] ∧
      decodeLine (_text_line ([] : Row)) ≠ ([] : Row) := by
  decide

/-! ## Estimate versus encoded size (claim C8) -/

theorem utf8Len_append (a b : PyStr) : utf8Len (a ++ b) = utf8Len a + utf8Len b := by
  simp [utf8Len]

theorem length_le_utf8Len : ∀ s : PyStr, s.length ≤ utf8Len s := by
  intro s
  induction s with
  | nil => simp [utf8Len]
  | cons c rest ih =>
    have := Char.utf8Size_pos c
    simp only [List.length_cons, utf8Len, List.map_cons, List.sum_cons]
    have hr : rest.length ≤ utf8Len rest := ih
    unfold utf8Len at hr
    omega

theorem one_le_utf8Len_escapeSpecChar (c : Char) : 1 ≤ utf8Len (escapeSpecChar c) := by
  unfold escapeSpecChar
  split_ifs <;>
    first
    | decide
    | (have hpos := Char.utf8Size_pos c
       simp [utf8Len]
       omega)

theorem length_le_utf8Len_escapeSpec : ∀ s : PyStr, s.length ≤ utf8Len (escapeSpec s) := by
  intro s
  induction s with
  | nil => simp [escapeSpec, utf8Len]
  | cons c rest ih =>
    unfold escapeSpec
    rw [List.flatMap_cons, utf8Len_append]
    have h1 := one_le_utf8Len_escapeSpecChar c
    have h2 : utf8Len (rest.flatMap escapeSpecChar) = utf8Len (escapeSpec rest) := rfl
    simp only [List.length_cons]
    unfold escapeSpec at ih
    omega

/-- Each field contributes at least its estimate to the encoded line. -/
theorem fieldEst_le_escaped (v : Field) :
    (match v with | none => 2 | some s => s.length)
      ≤ utf8Len (_escape_copy_text v) := by
  cases v with
  | none => decide
  | some s =>
    rw [escape_copy_text_fast_path]
    split_ifs with h
    · exact le_trans (length_le_utf8Len_escapeSpec s) (le_refl _)
    · exact length_le_utf8Len s

theorem utf8Len_joinTab : ∀ l : List PyStr, l ≠ [] →
    utf8Len (joinTab l) = (l.map utf8Len).sum + (l.length - 1) := by
  intro l
  induction l with
  | nil => intro h; exact absurd rfl h
  | cons x xs ih =>
    intro _
    cases xs with
    | nil => simp [joinTab]
    | cons y ys =>
      rw [show joinTab (x :: y :: ys) = x ++ '\t' :: joinTab (y :: ys) from rfl]
      rw [utf8Len_append]
      have hy := ih (by simp)
      have htab : utf8Len ('\t' :: joinTab (y :: ys)) = 1 + utf8Len (joinTab (y :: ys)) := by
        have ht : '\t'.utf8Size = 1 := by decide
        simp [utf8Len, ht]
      rw [htab, hy]
      simp only [List.map_cons, List.sum_cons, List.length_cons]
      omega

/-- **C8 (amended).** The row-size estimate is a cheap lower bound on the
eventual encoded size: for every row, `_estimate_copy_text_row_bytes row`
is at most the UTF-8 byte length of the encoded COPY TEXT line.  (It is not
monotone in the encoded size — see the counterexample.) -/
theorem estimate_le_encoded (row : Row) :
    _estimate_copy_text_row_bytes row ≤ utf8Len (_text_line row) := by
  unfold _estimate_copy_text_row_bytes _text_line
  split_ifs with h
  · rw [h]
    decide
  · rw [utf8Len_append,
      utf8Len_joinTab (row.map _escape_copy_text) (by simpa using h)]
    have hnl : utf8Len ['\n'] = 1 := by decide
    rw [hnl]
    have hsum : (row.map (fun v => match v with | none => 2 | some s => s.length)).sum
        ≤ ((row.map _escape_copy_text).map utf8Len).sum := by
      rw [List.map_map]
      exact List.sum_le_sum (fun v _ => fieldEst_le_escaped v)
    simp only [List.length_map]
    omega

/-- **C8 counterexample.** The estimate is not monotone in the encoded
size: the row `("aaa",)` encodes to 4 bytes with estimate 4, while the row
`("\t\t",)` encodes to 5 bytes with estimate 3 — the encoded sizes are
ordered one way, the estimates the other. -/
theorem estimate_not_monotone :
    utf8Len (_text_line [some ['a', 'a', 'a']])
        ≤ utf8Len (_text_line [some ['\t', '\t']]) ∧
      ¬ (_estimate_copy_text_row_bytes [some ['a', 'a', 'a']]
          ≤ _estimate_copy_text_row_bytes [some ['\t', '\t']]) := by
  decide

/-! ## Chunked writer proofs (claim C7) -/

/-- Shape of a chunk emitted by `_bytes_chunks`: a non-empty run of encoded
lines whose prefix before the final line is still under the limit — a chunk
can exceed `maxChunkBytes` only by its final row's line. -/
def ChunkOk (m : Nat) (c : PyStr × Nat) : Prop :=
  ∃ (rs : List Row) (last : Row),
    c.1 = (rs.map _text_line).flatten ++ _text_line last ∧
      c.2 = rs.length + 1 ∧
      utf8Len ((rs.map _text_line).flatten) < m

theorem text_line_ne_nil (r : Row) : _text_line r ≠ [] := by
  unfold _text_line
  simp

theorem flatten_lines_eq_nil {rs : List Row}
    (h : (rs.map _text_line).flatten = []) : rs = [] := by
  cases rs with
  | nil => rfl
  | cons r rest =>
    simp only [List.map_cons, List.flatten_cons] at h
    exact absurd (List.append_eq_nil.mp h).1 (text_line_ne_nil r)

theorem bytesChunksGo_spec (m : Nat) (hm : 0 < m) :
    ∀ (rows : List Row) (bufRows : List Row),
      utf8Len ((bufRows.map _text_line).flatten) < m →
      ∀ c ∈ bytesChunksGo m ((bufRows.map _text_line).flatten)
          bufRows.length rows,
        ChunkOk m c := by
  intro rows
  induction rows with
  | nil =>
    intro bufRows hbuf c hc
    unfold bytesChunksGo at hc
    split at hc
    · simp at hc
    · rename_i hne
      rw [List.mem_singleton] at hc
      subst hc
      obtain ⟨init, last, rfl⟩ : ∃ init last, bufRows = init ++ [last] := by
        cases hb : bufRows.reverse with
        | nil =>
          rw [List.reverse_eq_nil_iff] at hb
          rw [hb] at hne
          simp at hne
        | cons x xs =>
          refine ⟨xs.reverse, x, ?_⟩
          rw [← List.reverse_reverse bufRows, hb]
          simp
      have hsplit : (((init ++ [last]).map _text_line).flatten)
          = (init.map _text_line).flatten ++ _text_line last := by
        simp
      refine ⟨init, last, ?_, ?_, ?_⟩
      · simp
      · simp
      · rw [hsplit, utf8Len_append] at hbuf
        omega
  | cons r rest ih =>
    intro bufRows hbuf c hc
    unfold bytesChunksGo at hc
    simp only [] at hc
    split at hc
    · rename_i hflush
      rw [List.mem_cons] at hc
      rcases hc with rfl | hc
      · exact ⟨bufRows, r, rfl, rfl, hbuf⟩
      · exact ih [] (by simpa using hm) c hc
    · rename_i hflush
      push_neg at hflush
      have harg : ((bufRows ++ [r]).map _text_line).flatten
          = (bufRows.map _text_line).flatten ++ _text_line r := by
        simp
      have hlen : (bufRows ++ [r]).length = bufRows.length + 1 := by simp
      refine ih (bufRows ++ [r]) ?_ c ?_
      · rw [harg, utf8Len_append]
        rw [utf8Len_append] at hflush
        omega
      · rw [harg, hlen]
        exact hc

/-- **C7 (amended).** For every `max_chunk_bytes > 0`, every chunk produced
by `_bytes_chunks` is a non-empty run of encoded lines whose prefix before
its final line is under `max_chunk_bytes` — so a chunk can exceed the limit,
but only by its final row's encoded line (the buffer is flushed as soon as
it reaches the limit, not before it would exceed it) — and the psycopg3
branch of `copy_rows` issues exactly one `write` per produced chunk, in
order. -/
theorem bytes_chunks_spec (rows : List Row) (m : Nat) (hm : 0 < m) :
    (∀ c ∈ _bytes_chunks rows m, ChunkOk m c) ∧
      (copy_rows rows m).writes = (_bytes_chunks rows m).map Prod.fst ∧
      (copy_rows rows m).writes.length = (_bytes_chunks rows m).length := by
  refine ⟨?_, rfl, by simp [copy_rows]⟩
  intro c hc
  exact bytesChunksGo_spec m hm rows [] (by simpa using hm) c hc

/-- **C7 witness.** The chunk law applied to a concrete run: two small rows
under an 8-byte limit end up in one tail chunk, written once. -/
theorem bytes_chunks_spec_witness :
    (copy_rows [[some ['a']], [some ['b']]] 8).writes
      = [['a', '\n', 'b', '\n']] := by
  have h := bytes_chunks_spec [[some ['a']], [some ['b']]] 8 (by decide)
  rw [h.2.1]
  decide

/-- **C7 counterexample.** With `max_chunk_bytes = 2`, a single 5-byte line
is emitted as one 5-byte chunk: chunks are not bounded by
`max_chunk_bytes`. -/
theorem bytes_chunks_claim_false :
    _bytes_chunks [[some ['a', 'a', 'a', 'a']]] 2
        = [(['a', 'a', 'a', 'a', '\n'], 1)] ∧
      ¬ (utf8Len ['a', 'a', 'a', 'a', '\n'] ≤ 2) := by
  decide

/-! ## Record extractor proofs (claim C3) -/

theorem parseEventsLoop_eq (gid : Int) :
    ∀ l : List XmlElement,
      parseEventsLoop gid l
        = (l.filterMap (fun e => (_safe_int (e.get "id")).map
              (fun i => ⟨i, gid, _extract_event_name e⟩)),
           (l.filter (fun e => (_safe_int (e.get "id")).isNone)).length) := by
  intro l
  induction l with
  | nil => rfl
  | cons e rest ih =>
    unfold parseEventsLoop
    cases h : _safe_int (e.get "id") with
    | none => simp [h, ih, List.filterMap_cons, List.filter_cons]
    | some evId => simp [h, ih, List.filterMap_cons, List.filter_cons]

/-- **C3 (amended).** If the group's `id` attribute is missing or not
parseable by Python `int()` (arbitrary precision — there is no 64-bit range
check), `parse_group_event` returns no group, no events, and `skipped = 1`
regardless of the children; if the id parses, every direct `event` child
whose `id` fails to parse adds exactly 1 to `skipped` and is dropped, and
all other `event` children are emitted in order with the group's id. -/
theorem parse_group_event_spec (g : XmlElement) :
    (match _safe_int (g.get "id") with
     | none => parse_group_event g = ⟨none, [], 1⟩
     | some gid =>
       parse_group_event g
         = ⟨some ⟨gid, _extract_group_name g⟩,
             (g.children.filter (fun e => e.tag = "event")).filterMap
               (fun e => (_safe_int (e.get "id")).map
                 (fun i => ⟨i, gid, _extract_event_name e⟩)),
             ((g.children.filter (fun e => e.tag = "event")).filter
               (fun e => (_safe_int (e.get "id")).isNone)).length⟩ : Prop) := by
  cases h : _safe_int (g.get "id") with
  | none => simp [parse_group_event, h]
  | some gid => simp [parse_group_event, h, parseEventsLoop_eq]

/-- **C3 counterexample.** `_safe_int` is Python `int()` with no range
check: the id `9223372036854775808 = 2^63` lies outside the signed 64-bit
range, yet the group is accepted with `skipped = 0` — the claim demands the
subtree be dropped with `skipped = 1`. -/
theorem parse_group_event_claim_false :
    ((2 ^ 63 - 1 : Int) < 9223372036854775808) ∧
      parse_group_event
          ⟨"group_event", [("id", "9223372036854775808")], none,
            [⟨"event", [("id", "10")], some "Ten", []⟩]⟩
        = ⟨some ⟨9223372036854775808, none⟩,
            [⟨10, 9223372036854775808, some "Ten"⟩], 0⟩ ∧
      parse_group_event
          ⟨"group_event", [("id", "9223372036854775808")], none,
            [⟨"event", [("id", "10")], some "Ten", []⟩]⟩
        ≠ ⟨none, [], 1⟩ := by
  decide

end Xml2PG

section SanityChecks
/-! Concrete evaluations of the embedded functions, matching hand-computed
behaviour of the Python source on small inputs. -/
open Xml2PG
example : _escape_copy_text (some ['a', '\x08', 'b']) = ['a', '\x08', 'b'] := by decide
example : _escape_copy_text (some ['\\', 'N']) = ['\\', '\\', 'N'] := by decide
example : decodeLine (_text_line [some ['\\', 'N'], none, some ['a', '\t']])
    = [some ['\\', 'N'], none, some ['a', '\t']] := by decide
example : decodeLine (_text_line []) = [some []] := by decide
example : _bytes_chunks [[some ['a', 'a', 'a', 'a']]] 2 = [(['a','a','a','a','\n'], 1)] := by decide
example : pyInt "  -1_2_3  " = some (-123) := by decide
example : pyInt "12a" = none := by decide
example : pyInt "_12" = none := by decide
example : pyInt "12_" = none := by decide
example : pyInt "9223372036854775808" = some 9223372036854775808 := by decide
example : parse_group_event ⟨"group_event", [("name", "G")], none, []⟩ = ⟨none, [], 1⟩ := by decide
example :
    parse_group_event
      ⟨"group_event", [("id", "1"), ("name", " G ")], none,
        [ ⟨"event", [("id", "10")], some " Ten ", []⟩
        , ⟨"event", [], some "no-id", []⟩
        , ⟨"other", [("id", "7")], none, []⟩
        , ⟨"event", [("id", "x")], none, []⟩ ]⟩
    = ⟨some ⟨1, some "G"⟩, [⟨10, 1, some "Ten"⟩], 2⟩ := by decide
example :
    iter_batches "event" 2 1000 [[some ['a']], [some ['b']], [some ['c']]]
    = [⟨"event", [[some ['a']], [some ['b']]]⟩, ⟨"event", [[some ['c']]]⟩] := by decide
example :
    iter_batches "event" 10 3 [[some ['a','a','a','a']], [some ['b']]]
    = [⟨"event", [[some ['a','a','a','a']]]⟩, ⟨"event", [[some ['b']]]⟩] := by decide
example :
    _process_batch "group" (fun _ => false) 7 2 (1/2)
    = ⟨3, 3, [1/2, 1], 0, 0, false⟩ := by
  norm_num [_process_batch, attemptLoop]
example :
    _process_batch "group" (fun a => a = 1) 7 2 (1/2)
    = ⟨2, 1, [1/2], 7, 1, true⟩ := by
  norm_num [_process_batch, attemptLoop]
example :
    (IterTextReader.read ⟨[['a','b'], ['c']], []⟩ 1).1 = ['a'] := by decide
example :
    drainReads 2 10 ⟨[['a','b','c'], [], ['d']], []⟩ = ['a','b','c','d'] := by decide
end SanityChecks
